import Mathlib

/-!
Shallow embedding of the Wasm backtrace / stack-walking core of
`crates/runtime/src/traphandlers/backtrace.rs`.

Machine words (`usize`) are modelled as `Nat`; stack memory is a word-read
function `mem : Nat → Nat` giving the word stored at a byte address.  The
per-frame consumer (`impl FnMut(Frame) -> ControlFlow<()>`) is modelled as a
stateful visitor `σ → Frame → σ × Bool` (`true` = `ControlFlow::Continue`,
`false` = `ControlFlow::Break`).  A failed `assert!`/`debug_assert!` (a Rust
panic, with debug assertions enabled) is modelled as an explicit abort
outcome; the `unreachable!()` at the end of `trace_with_trap_state` is kept
as a distinct outcome so that its unreachability can be proved.

Every trace function additionally returns the list of frames passed to the
visitor, in emission order, so that properties of the emitted sequence can
be stated directly.
-/

/-- A stack frame within a Wasm stack trace (`struct Frame { pc, fp }`). -/
structure Frame where
  pc : Nat
  fp : Nat
deriving DecidableEq, Repr

/-- Modelled from the spec: the per-architecture contract of the
architecture boundary layer (`backtrace::arch`; the per-architecture
modules `x86_64.rs`, `aarch64.rs`, `s390x.rs`, `riscv64.rs` are not part of
the sources at hand).  `get_next_older_pc_from_fp` reads a linkage word
reachable from `fp`; `reached_entry_sp` decides whether a candidate frame
pointer has walked back into the trampoline frame; the two alignment
predicates are the debug ABI checks. -/
structure Arch where
  get_next_older_pc_from_fp : (Nat → Nat) → Nat → Nat
  NEXT_OLDER_FP_FROM_FP_OFFSET : Nat
  reached_entry_sp : Nat → Nat → Bool
  entry_sp_is_aligned : Nat → Bool
  fp_is_aligned : Nat → Bool

variable {σ : Type}

/-- The body of the `loop` in `Backtrace::trace_through_wasm`.  Returns the
frames emitted (passed to the visitor) in order, together with `none` on an
assertion failure (panic), `some (s, false)` when the visitor broke out, and
`some (s, true)` when the region was walked to its boundary
(`ControlFlow::Continue` returned to the caller). -/
def traceLoop (A : Arch) (mem : Nat → Nat) (f : σ → Frame → σ × Bool)
    (trampoline_sp : Nat) : Nat → Nat → σ → List Frame × Option (σ × Bool)
  | pc, fp, s =>
    -- assert!(trampoline_sp >= fp)
    if h1 : trampoline_sp ≥ fp then
      -- arch::assert_fp_is_aligned(fp)
      if A.fp_is_aligned fp then
        -- f(Frame { pc, fp })?
        let step := f s ⟨pc, fp⟩
        if step.2 then
          -- pc = arch::get_next_older_pc_from_fp(fp)
          let pc1 := A.get_next_older_pc_from_fp mem fp
          -- assert_eq!(arch::NEXT_OLDER_FP_FROM_FP_OFFSET, 0)
          if A.NEXT_OLDER_FP_FROM_FP_OFFSET = 0 then
            -- *(fp as *mut usize).add(NEXT_OLDER_FP_FROM_FP_OFFSET)
            let next_older_fp := mem (fp + 8 * A.NEXT_OLDER_FP_FROM_FP_OFFSET)
            if A.reached_entry_sp next_older_fp trampoline_sp then
              ([⟨pc, fp⟩], some (step.1, true))
            else
              -- assert!(next_older_fp > fp)
              if h2 : next_older_fp > fp then
                let r := traceLoop A mem f trampoline_sp pc1 next_older_fp step.1
                (⟨pc, fp⟩ :: r.1, r.2)
              else ([⟨pc, fp⟩], none)
          else ([⟨pc, fp⟩], none)
        else ([⟨pc, fp⟩], some (step.1, false))
      else ([], none)
    else ([], none)
termination_by pc fp _ => trampoline_sp + 1 - fp
decreasing_by omega

/-- `Backtrace::trace_through_wasm`: walk one contiguous sequence of Wasm
frames starting at the given `pc`/`fp` and bounded by `trampoline_sp`. -/
def trace_through_wasm (A : Arch) (mem : Nat → Nat) (f : σ → Frame → σ × Bool)
    (pc fp trampoline_sp : Nat) (s : σ) : List Frame × Option (σ × Bool) :=
  -- assert_ne!(pc, 0); assert_ne!(fp, 0); assert_ne!(trampoline_sp, 0)
  if pc ≠ 0 ∧ fp ≠ 0 ∧ trampoline_sp ≠ 0 then
    -- arch::assert_entry_sp_is_aligned(trampoline_sp)
    if A.entry_sp_is_aligned trampoline_sp then
      traceLoop A mem f trampoline_sp pc fp s
    else ([], none)
  else ([], none)

/-- The saved registers of one `CallThreadState` entry: the snapshot of the
boundary record taken when the entry was pushed. -/
structure CallRegionRecord where
  old_last_wasm_exit_pc : Nat
  old_last_wasm_exit_fp : Nat
  old_last_wasm_entry_sp : Nat
deriving DecidableEq, Repr

/-- The linked list of `CallThreadState` entries reachable through `prev`
pointers; `last` is the entry whose `prev` pointer is null. -/
inductive CallStateChain where
  | last (entry : CallRegionRecord)
  | cons (entry : CallRegionRecord) (prev : CallStateChain)
deriving DecidableEq, Repr

/-- `CallThreadState::iter()`: the sequence of entries yielded by following
`prev` pointers, each paired with whether its `prev` pointer is null. -/
def CallStateChain.iter : CallStateChain → List (CallRegionRecord × Bool)
  | .last r => [(r, true)]
  | .cons r p => (r, false) :: p.iter

/-- The live boundary record stored in `VMRuntimeLimits`. -/
structure VMRuntimeLimits where
  last_wasm_exit_pc : Nat
  last_wasm_exit_fp : Nat
  last_wasm_entry_sp : Nat
deriving DecidableEq, Repr

/-- The thread state consumed by a capture: the live `VMRuntimeLimits`
boundary record plus the chain of `CallThreadState` entries starting at the
state itself. -/
structure CallThreadState where
  limits : VMRuntimeLimits
  chain : CallStateChain
deriving DecidableEq, Repr

/-- How one invocation of `trace_with_trap_state` ends: a normal `return`
(carrying the final visitor state), a failed `assert!`/`debug_assert!`
(panic), or the final `unreachable!()` (also a panic, kept distinct). -/
inductive TraceOutcome (σ : Type) where
  | done (s : σ)
  | abortAssert
  | abortUnreachable
deriving DecidableEq, Repr

/-- The `for state in state.iter()` loop of `trace_with_trap_state`: trace
through each of the older contiguous sequences of Wasm frames.  Falling off
the end of the iteration is the `unreachable!()`. -/
def traceOlderRegions (A : Arch) (mem : Nat → Nat) (f : σ → Frame → σ × Bool) :
    List (CallRegionRecord × Bool) → σ → List Frame × TraceOutcome σ
  | [], _ => ([], .abortUnreachable)
  | (r, prevNull) :: rest, s =>
    if prevNull then
      -- debug_assert_eq! on all three saved fields, then return
      if r.old_last_wasm_exit_pc = 0 ∧ r.old_last_wasm_exit_fp = 0 ∧
          r.old_last_wasm_entry_sp = 0 then
        ([], .done s)
      else ([], .abortAssert)
    else if r.old_last_wasm_entry_sp = 0 then
      -- null/empty `CallThreadState` entry: recognize and ignore
      if r.old_last_wasm_exit_fp = 0 ∧ r.old_last_wasm_exit_pc = 0 then
        traceOlderRegions A mem f rest s
      else ([], .abortAssert)
    else
      match trace_through_wasm A mem f r.old_last_wasm_exit_pc
          r.old_last_wasm_exit_fp r.old_last_wasm_entry_sp s with
      | (l, none) => (l, .abortAssert)
      | (l, some (s1, false)) => (l, .done s1)
      | (l, some (s1, true)) =>
        let older := traceOlderRegions A mem f rest s1
        (l ++ older.1, older.2)

/-- The tail of `trace_with_trap_state` once the innermost `pc`/`fp` pair
has been resolved: trace the first contiguous sequence, then the older
ones. -/
def traceResolved (A : Arch) (mem : Nat → Nat) (state : CallThreadState)
    (f : σ → Frame → σ × Bool) (pc fp : Nat) (s : σ) :
    List Frame × TraceOutcome σ :=
  match trace_through_wasm A mem f pc fp state.limits.last_wasm_entry_sp s with
  | (l, none) => (l, .abortAssert)
  | (l, some (s1, false)) => (l, .done s1)
  | (l, some (s1, true)) =>
    let older := traceOlderRegions A mem f state.chain.iter s1
    (l ++ older.1, older.2)

/-- `Backtrace::trace_with_trap_state`: walk the current Wasm stack, calling
the visitor for each frame. -/
def trace_with_trap_state (A : Arch) (mem : Nat → Nat) (state : CallThreadState)
    (trap_pc_and_fp : Option (Nat × Nat)) (f : σ → Frame → σ × Bool) (s : σ) :
    List Frame × TraceOutcome σ :=
  match trap_pc_and_fp with
  | some (pc, fp) => traceResolved A mem state f pc fp s
  | none =>
    let pc := state.limits.last_wasm_exit_pc
    let fp := state.limits.last_wasm_exit_fp
    if pc = 0 then
      -- assert_eq!(fp, 0); return
      if fp = 0 then ([], .done s) else ([], .abortAssert)
    else traceResolved A mem state f pc fp s

/-- A WebAssembly stack trace (`struct Backtrace(Vec<Frame>)`). -/
structure Backtrace where
  toList : List Frame
deriving DecidableEq, Repr

/-- `Backtrace::frames`: iterate over the frames inside this backtrace. -/
def Backtrace.frames (b : Backtrace) : List Frame := b.toList

/-- `Backtrace::empty`: an empty backtrace. -/
def Backtrace.empty : Backtrace := ⟨[]⟩

/-- The closure passed by `Backtrace::new_with_trap_state`: push each frame
and continue. -/
def collectVisitor : List Frame → Frame → List Frame × Bool :=
  fun acc fr => (acc ++ [fr], true)

/-- `Backtrace::new_with_trap_state`: capture the current Wasm stack trace
by running `trace_with_trap_state` with the collecting visitor; `none` when
the walk panics. -/
def Backtrace.new_with_trap_state (A : Arch) (mem : Nat → Nat)
    (state : CallThreadState) (trap_pc_and_fp : Option (Nat × Nat)) :
    Option Backtrace :=
  match (trace_with_trap_state A mem state trap_pc_and_fp collectVisitor []).2 with
  | .done frames => some ⟨frames⟩
  | _ => none

/-- The trivial always-continue visitor. -/
def unitV : Unit → Frame → Unit × Bool := fun _ _ => ((), true)

/-- A visitor that never breaks out of the walk. -/
def alwaysContinues (f : σ → Frame → σ × Bool) : Prop :=
  ∀ a fr, (f a fr).2 = true

/-- Thread the visitor through a list of frames and return its final
state. -/
def visitorFold (f : σ → Frame → σ × Bool) (s : σ) (l : List Frame) : σ :=
  l.foldl (fun a fr => (f a fr).1) s

/-- An x86-64-style architecture backend used as a concrete test harness:
the saved-frame-pointer linkage word is at offset 0, the return address one
word above, the boundary comparator is `≥`, and stacks are 16-byte
aligned.  Modelled from the spec: mirrors `backtrace/x86_64.rs`, which is
not part of the sources at hand. -/
def archX64 : Arch where
  get_next_older_pc_from_fp := fun mem fp => mem (fp + 8)
  NEXT_OLDER_FP_FROM_FP_OFFSET := 0
  reached_entry_sp := fun fp sp => decide (fp ≥ sp)
  entry_sp_is_aligned := fun sp => decide (sp % 16 = 0)
  fp_is_aligned := fun fp => decide (fp % 16 = 0)

/-- A synthetic two-region stack memory: an innermost region of two frames
(fp 16 then 32, bounded by entry sp 48) and an older region of one frame
(fp 64, bounded by entry sp 80). -/
def memTwoRegions : Nat → Nat := fun a =>
  if a = 16 then 32
  else if a = 24 then 101
  else if a = 32 then 48
  else if a = 64 then 80
  else 0

/-- A synthetic thread state for the two-region memory: the live boundary
record points at the innermost region, the chain holds one vacuous entry,
one entry for the older region, and the vacuous sentinel. -/
def stateTwoRegions : CallThreadState where
  limits := ⟨100, 16, 48⟩
  chain := .cons ⟨0, 0, 0⟩ (.cons ⟨200, 64, 80⟩ (.last ⟨0, 0, 0⟩))

/-- The visitor continued at every frame of the list. -/
def allContinue (f : σ → Frame → σ × Bool) : σ → List Frame → Prop
  | _, [] => True
  | s, fr :: rest => (f s fr).2 = true ∧ allContinue f (f s fr).1 rest

/-- The visitor continued at every frame of the list except possibly the
last one: once the visitor breaks, no further frame is ever emitted. -/
def noInternalStop (f : σ → Frame → σ × Bool) : σ → List Frame → Prop
  | _, [] => True
  | s, fr :: rest => rest = [] ∨ ((f s fr).2 = true ∧ noInternalStop f (f s fr).1 rest)

/-- The break/continue shape of a region-walk result, forgetting the
visitor state. -/
def optKind : Option (σ × Bool) → Option Bool
  | none => none
  | some (_, b) => some b

/-- The shape of a capture outcome, forgetting the visitor state. -/
def TraceOutcome.kind : TraceOutcome σ → TraceOutcome Unit
  | .done _ => .done ()
  | .abortAssert => .abortAssert
  | .abortUnreachable => .abortUnreachable

/-- A synthetic contiguous region, described by the exact frame list a walk
bounded by `trampoline_sp` should produce: each frame pointer is within the
bound and aligned, consecutive frames are linked through the saved-frame-
pointer and return-address linkage words in `mem`, frame pointers grow
strictly outward, no intermediate linkage word reaches the boundary, and
the last frame's linkage word does. -/
def wfRegionFrames (A : Arch) (mem : Nat → Nat) (trampoline_sp : Nat) :
    List Frame → Bool
  | [] => false
  | [fr] =>
      decide (fr.fp ≤ trampoline_sp) && A.fp_is_aligned fr.fp &&
      A.reached_entry_sp (mem (fr.fp + 8 * A.NEXT_OLDER_FP_FROM_FP_OFFSET))
        trampoline_sp
  | fr :: fr2 :: rest =>
      decide (fr.fp ≤ trampoline_sp) && A.fp_is_aligned fr.fp &&
      !(A.reached_entry_sp (mem (fr.fp + 8 * A.NEXT_OLDER_FP_FROM_FP_OFFSET))
        trampoline_sp) &&
      decide (mem (fr.fp + 8 * A.NEXT_OLDER_FP_FROM_FP_OFFSET) = fr2.fp) &&
      decide (A.get_next_older_pc_from_fp mem fr.fp = fr2.pc) &&
      decide (fr.fp < fr2.fp) &&
      wfRegionFrames A mem trampoline_sp (fr2 :: rest)

/-- A well-formed synthetic region including the walk preconditions on its
entry frame and bound. -/
def wfRegion (A : Arch) (mem : Nat → Nat) (frames : List Frame)
    (entry_sp : Nat) : Bool :=
  match frames with
  | [] => false
  | fr :: _ =>
      decide (fr.pc ≠ 0) && decide (fr.fp ≠ 0) && decide (entry_sp ≠ 0) &&
      A.entry_sp_is_aligned entry_sp && wfRegionFrames A mem entry_sp frames

/-- A synthetic call-region chain matching a list of synthetic regions
(each a frame list with its entry stack pointer), next-older-first:
vacuous entries are all-zero and skipped, each non-vacuous entry holds the
entry point and bound of the corresponding well-formed region, and the
sentinel closes the chain against the empty region list. -/
def chainMatches (A : Arch) (mem : Nat → Nat) :
    CallStateChain → List (List Frame × Nat) → Bool
  | .last r, [] =>
      decide (r.old_last_wasm_exit_pc = 0) &&
      decide (r.old_last_wasm_exit_fp = 0) &&
      decide (r.old_last_wasm_entry_sp = 0)
  | .last _, _ :: _ => false
  | .cons r p, regions =>
      if r.old_last_wasm_entry_sp = 0 then
        decide (r.old_last_wasm_exit_fp = 0) &&
        decide (r.old_last_wasm_exit_pc = 0) &&
        chainMatches A mem p regions
      else
        match regions with
        | [] => false
        | (frames, sp) :: rest =>
          match frames with
          | [] => false
          | fr :: _ =>
            decide (r.old_last_wasm_exit_pc = fr.pc) &&
            decide (r.old_last_wasm_exit_fp = fr.fp) &&
            decide (r.old_last_wasm_entry_sp = sp) &&
            wfRegion A mem frames sp &&
            chainMatches A mem p rest

/-- A thread state that has never entered Wasm: zeroed live boundary record
and only the vacuous sentinel on the chain. -/
def stateEmpty : CallThreadState where
  limits := ⟨0, 0, 0⟩
  chain := .last ⟨0, 0, 0⟩

/-- The observable result of a streaming walk: the emitted frame sequence
when the walk returned normally, nothing when it aborted. -/
def streamResult (p : List Frame × TraceOutcome σ) : Option (List Frame) :=
  match p.2 with
  | .done _ => some p.1
  | _ => none

theorem visitorFold_nil (f : σ → Frame → σ × Bool) (s : σ) :
    visitorFold f s [] = s := rfl

theorem visitorFold_cons (f : σ → Frame → σ × Bool) (s : σ) (fr : Frame)
    (l : List Frame) : visitorFold f s (fr :: l) = visitorFold f (f s fr).1 l := rfl

theorem visitorFold_append (f : σ → Frame → σ × Bool) (s : σ) (l1 l2 : List Frame) :
    visitorFold f s (l1 ++ l2) = visitorFold f (visitorFold f s l1) l2 := by
  simp [visitorFold]

theorem allContinue_noInternalStop (f : σ → Frame → σ × Bool) :
    ∀ l s, allContinue f s l → noInternalStop f s l := by
  intro l
  induction l with
  | nil => intro s _; trivial
  | cons fr rest ih =>
    intro s h
    exact Or.inr ⟨h.1, ih (f s fr).1 h.2⟩

theorem allContinue_append (f : σ → Frame → σ × Bool) :
    ∀ l1 l2 s, allContinue f s l1 → allContinue f (visitorFold f s l1) l2 →
      allContinue f s (l1 ++ l2) := by
  intro l1
  induction l1 with
  | nil => intro l2 s _ h2; exact h2
  | cons fr rest ih =>
    intro l2 s h1 h2
    exact ⟨h1.1, ih l2 (f s fr).1 h1.2 h2⟩

theorem noInternalStop_append (f : σ → Frame → σ × Bool) :
    ∀ l1 l2 s, allContinue f s l1 → noInternalStop f (visitorFold f s l1) l2 →
      noInternalStop f s (l1 ++ l2) := by
  intro l1
  induction l1 with
  | nil => intro l2 s _ h2; exact h2
  | cons fr rest ih =>
    intro l2 s h1 h2
    exact Or.inr ⟨h1.1, ih l2 (f s fr).1 h1.2 h2⟩

section TraceLoopEquations

variable (A : Arch) (mem : Nat → Nat) (f : σ → Frame → σ × Bool)
variable (tsp pc fp : Nat) (s : σ)

theorem traceLoop_eq_not_ge (h1 : ¬ tsp ≥ fp) :
    traceLoop A mem f tsp pc fp s = ([], none) := by
  unfold traceLoop
  simp [h1]

theorem traceLoop_eq_not_aligned (h1 : tsp ≥ fp)
    (h2 : A.fp_is_aligned fp = false) :
    traceLoop A mem f tsp pc fp s = ([], none) := by
  unfold traceLoop
  simp [h1, h2]

theorem traceLoop_eq_break (h1 : tsp ≥ fp) (h2 : A.fp_is_aligned fp = true)
    (h3 : (f s ⟨pc, fp⟩).2 = false) :
    traceLoop A mem f tsp pc fp s = ([⟨pc, fp⟩], some ((f s ⟨pc, fp⟩).1, false)) := by
  unfold traceLoop
  simp [h1, h2, h3]

theorem traceLoop_eq_bad_offset (h1 : tsp ≥ fp) (h2 : A.fp_is_aligned fp = true)
    (h3 : (f s ⟨pc, fp⟩).2 = true) (h4 : A.NEXT_OLDER_FP_FROM_FP_OFFSET ≠ 0) :
    traceLoop A mem f tsp pc fp s = ([⟨pc, fp⟩], none) := by
  unfold traceLoop
  simp [h1, h2, h3, h4]

theorem traceLoop_eq_reached (h1 : tsp ≥ fp) (h2 : A.fp_is_aligned fp = true)
    (h3 : (f s ⟨pc, fp⟩).2 = true) (h4 : A.NEXT_OLDER_FP_FROM_FP_OFFSET = 0)
    (h5 : A.reached_entry_sp (mem (fp + 8 * A.NEXT_OLDER_FP_FROM_FP_OFFSET)) tsp = true) :
    traceLoop A mem f tsp pc fp s = ([⟨pc, fp⟩], some ((f s ⟨pc, fp⟩).1, true)) := by
  unfold traceLoop
  rw [h4] at h5
  simp only [Nat.mul_zero, Nat.add_zero] at h5
  simp [h1, h2, h3, h4, h5]

theorem traceLoop_eq_not_growing (h1 : tsp ≥ fp) (h2 : A.fp_is_aligned fp = true)
    (h3 : (f s ⟨pc, fp⟩).2 = true) (h4 : A.NEXT_OLDER_FP_FROM_FP_OFFSET = 0)
    (h5 : A.reached_entry_sp (mem (fp + 8 * A.NEXT_OLDER_FP_FROM_FP_OFFSET)) tsp = false)
    (h6 : ¬ mem (fp + 8 * A.NEXT_OLDER_FP_FROM_FP_OFFSET) > fp) :
    traceLoop A mem f tsp pc fp s = ([⟨pc, fp⟩], none) := by
  unfold traceLoop
  rw [h4] at h5 h6
  simp only [Nat.mul_zero, Nat.add_zero] at h5 h6
  simp [h1, h2, h3, h4, h5, h6]

theorem traceLoop_eq_next (h1 : tsp ≥ fp) (h2 : A.fp_is_aligned fp = true)
    (h3 : (f s ⟨pc, fp⟩).2 = true) (h4 : A.NEXT_OLDER_FP_FROM_FP_OFFSET = 0)
    (h5 : A.reached_entry_sp (mem (fp + 8 * A.NEXT_OLDER_FP_FROM_FP_OFFSET)) tsp = false)
    (h6 : mem (fp + 8 * A.NEXT_OLDER_FP_FROM_FP_OFFSET) > fp) :
    traceLoop A mem f tsp pc fp s =
      (⟨pc, fp⟩ ::
        (traceLoop A mem f tsp (A.get_next_older_pc_from_fp mem fp)
          (mem (fp + 8 * A.NEXT_OLDER_FP_FROM_FP_OFFSET)) (f s ⟨pc, fp⟩).1).1,
        (traceLoop A mem f tsp (A.get_next_older_pc_from_fp mem fp)
          (mem (fp + 8 * A.NEXT_OLDER_FP_FROM_FP_OFFSET)) (f s ⟨pc, fp⟩).1).2) := by
  conv_lhs => unfold traceLoop
  rw [h4] at h5 h6
  simp only [Nat.mul_zero, Nat.add_zero] at h5 h6
  simp [h1, h2, h3, h4, h5, h6]

end TraceLoopEquations

/-- Master structural facts about one region walk, by fuel induction: the
emitted list starts at the entry frame when nonempty, its frame pointers
grow strictly and stay at or below the region bound, a returned visitor
state is the fold of the visitor over the emitted frames, the visitor never
broke except possibly at the last emitted frame, and unless the walk ended
on a visitor break the visitor continued at every emitted frame. -/
theorem traceLoop_spec (A : Arch) (mem : Nat → Nat) (f : σ → Frame → σ × Bool)
    (tsp : Nat) : ∀ n pc fp s, tsp + 1 - fp ≤ n →
    ((traceLoop A mem f tsp pc fp s).1 = [] ∨
      (traceLoop A mem f tsp pc fp s).1.head? = some ⟨pc, fp⟩) ∧
    List.Chain' (fun a b => a < b) ((traceLoop A mem f tsp pc fp s).1.map Frame.fp) ∧
    (∀ fr ∈ (traceLoop A mem f tsp pc fp s).1, fr.fp ≤ tsp) ∧
    (∀ s1 b, (traceLoop A mem f tsp pc fp s).2 = some (s1, b) →
      s1 = visitorFold f s (traceLoop A mem f tsp pc fp s).1) ∧
    noInternalStop f s (traceLoop A mem f tsp pc fp s).1 ∧
    ((∀ s1, (traceLoop A mem f tsp pc fp s).2 ≠ some (s1, false)) →
      allContinue f s (traceLoop A mem f tsp pc fp s).1) := by
  intro n
  induction n with
  | zero =>
    intro pc fp s hn
    rw [traceLoop_eq_not_ge A mem f tsp pc fp s (by omega)]
    refine ⟨Or.inl rfl, by simp, by simp, ?_, trivial, fun _ => trivial⟩
    intro s1 b h
    simp at h
  | succ n ih =>
    intro pc fp s hn
    by_cases h1 : tsp ≥ fp
    · by_cases h2 : A.fp_is_aligned fp = true
      · by_cases h3 : (f s ⟨pc, fp⟩).2 = true
        · by_cases h4 : A.NEXT_OLDER_FP_FROM_FP_OFFSET = 0
          · by_cases h5 : A.reached_entry_sp
                (mem (fp + 8 * A.NEXT_OLDER_FP_FROM_FP_OFFSET)) tsp = true
            · rw [traceLoop_eq_reached A mem f tsp pc fp s h1 h2 h3 h4 h5]
              refine ⟨Or.inr rfl, by simp, by simpa using h1, ?_, Or.inl rfl, ?_⟩
              · intro s1 b h
                simp only [Option.some.injEq, Prod.mk.injEq] at h
                simp [visitorFold, h.1]
              · intro _
                exact ⟨h3, trivial⟩
            · by_cases h6 : mem (fp + 8 * A.NEXT_OLDER_FP_FROM_FP_OFFSET) > fp
              · rw [traceLoop_eq_next A mem f tsp pc fp s h1 h2 h3 h4
                  (Bool.not_eq_true _ ▸ h5) h6]
                have hm : tsp + 1 - mem (fp + 8 * A.NEXT_OLDER_FP_FROM_FP_OFFSET) ≤ n := by
                  omega
                obtain ⟨ihHead, ihChain, ihBound, ihFold, ihNoStop, ihCont⟩ :=
                  ih (A.get_next_older_pc_from_fp mem fp)
                    (mem (fp + 8 * A.NEXT_OLDER_FP_FROM_FP_OFFSET)) (f s ⟨pc, fp⟩).1 hm
                refine ⟨Or.inr rfl, ?_, ?_, ?_, ?_, ?_⟩
                · rw [List.map_cons, List.chain'_cons']
                  refine ⟨?_, ihChain⟩
                  intro b hb
                  rcases ihHead with hNil | hHead
                  · simp [hNil] at hb
                  · rw [List.head?_map, hHead] at hb
                    simp at hb ⊢
                    omega
                · intro fr hfr
                  rcases List.mem_cons.mp hfr with hfr | hfr
                  · simp [hfr]; omega
                  · exact ihBound fr hfr
                · intro s1 b h
                  rw [visitorFold_cons]
                  exact ihFold s1 b h
                · exact Or.inr ⟨h3, ihNoStop⟩
                · intro hne
                  exact ⟨h3, ihCont hne⟩
              · rw [traceLoop_eq_not_growing A mem f tsp pc fp s h1 h2 h3 h4
                  (Bool.not_eq_true _ ▸ h5) h6]
                refine ⟨Or.inr rfl, by simp, by simpa using h1, ?_, Or.inl rfl, ?_⟩
                · intro s1 b h
                  simp at h
                · intro _
                  exact ⟨h3, trivial⟩
          · rw [traceLoop_eq_bad_offset A mem f tsp pc fp s h1 h2 h3 h4]
            refine ⟨Or.inr rfl, by simp, by simpa using h1, ?_, Or.inl rfl, ?_⟩
            · intro s1 b h
              simp at h
            · intro _
              exact ⟨h3, trivial⟩
        · rw [traceLoop_eq_break A mem f tsp pc fp s h1 h2 (Bool.not_eq_true _ ▸ h3)]
          refine ⟨Or.inr rfl, by simp, by simpa using h1, ?_, Or.inl rfl, ?_⟩
          · intro s1 b h
            simp only [Option.some.injEq, Prod.mk.injEq] at h
            simp [visitorFold, h.1]
          · intro hne
            exact absurd rfl (hne (f s ⟨pc, fp⟩).1)
      · rw [traceLoop_eq_not_aligned A mem f tsp pc fp s h1 (Bool.not_eq_true _ ▸ h2)]
        refine ⟨Or.inl rfl, by simp, by simp, ?_, trivial, fun _ => trivial⟩
        intro s1 b h
        simp at h
    · rw [traceLoop_eq_not_ge A mem f tsp pc fp s h1]
      refine ⟨Or.inl rfl, by simp, by simp, ?_, trivial, fun _ => trivial⟩
      intro s1 b h
      simp at h

/-- `traceLoop_spec` without the fuel argument. -/
theorem traceLoop_facts (A : Arch) (mem : Nat → Nat) (f : σ → Frame → σ × Bool)
    (tsp pc fp : Nat) (s : σ) :
    ((traceLoop A mem f tsp pc fp s).1 = [] ∨
      (traceLoop A mem f tsp pc fp s).1.head? = some ⟨pc, fp⟩) ∧
    List.Chain' (fun a b => a < b) ((traceLoop A mem f tsp pc fp s).1.map Frame.fp) ∧
    (∀ fr ∈ (traceLoop A mem f tsp pc fp s).1, fr.fp ≤ tsp) ∧
    (∀ s1 b, (traceLoop A mem f tsp pc fp s).2 = some (s1, b) →
      s1 = visitorFold f s (traceLoop A mem f tsp pc fp s).1) ∧
    noInternalStop f s (traceLoop A mem f tsp pc fp s).1 ∧
    ((∀ s1, (traceLoop A mem f tsp pc fp s).2 ≠ some (s1, false)) →
      allContinue f s (traceLoop A mem f tsp pc fp s).1) :=
  traceLoop_spec A mem f tsp (tsp + 1 - fp) pc fp s le_rfl

/-- The facts of `traceLoop_facts` carried through the assertion prologue of
`trace_through_wasm`. -/
theorem trace_through_wasm_facts (A : Arch) (mem : Nat → Nat)
    (f : σ → Frame → σ × Bool) (pc fp tsp : Nat) (s : σ) :
    ((trace_through_wasm A mem f pc fp tsp s).1 = [] ∨
      (trace_through_wasm A mem f pc fp tsp s).1.head? = some ⟨pc, fp⟩) ∧
    List.Chain' (fun a b => a < b)
      ((trace_through_wasm A mem f pc fp tsp s).1.map Frame.fp) ∧
    (∀ fr ∈ (trace_through_wasm A mem f pc fp tsp s).1, fr.fp ≤ tsp) ∧
    (∀ s1 b, (trace_through_wasm A mem f pc fp tsp s).2 = some (s1, b) →
      s1 = visitorFold f s (trace_through_wasm A mem f pc fp tsp s).1) ∧
    noInternalStop f s (trace_through_wasm A mem f pc fp tsp s).1 ∧
    ((∀ s1, (trace_through_wasm A mem f pc fp tsp s).2 ≠ some (s1, false)) →
      allContinue f s (trace_through_wasm A mem f pc fp tsp s).1) := by
  unfold trace_through_wasm
  by_cases hz : pc ≠ 0 ∧ fp ≠ 0 ∧ tsp ≠ 0
  · by_cases ha : A.entry_sp_is_aligned tsp = true
    · rw [if_pos hz, if_pos ha]
      exact traceLoop_facts A mem f tsp pc fp s
    · rw [if_pos hz, if_neg ha]
      refine ⟨Or.inl rfl, by simp, by simp, ?_, trivial, fun _ => trivial⟩
      intro s1 b h
      simp at h
  · rw [if_neg hz]
    refine ⟨Or.inl rfl, by simp, by simp, ?_, trivial, fun _ => trivial⟩
    intro s1 b h
    simp at h

/-- Structural facts about the loop over older regions: a normal return
carries the fold of the visitor over the frames emitted by the loop, and
the visitor never broke except possibly at the last emitted frame. -/
theorem traceOlderRegions_facts (A : Arch) (mem : Nat → Nat)
    (f : σ → Frame → σ × Bool) :
    ∀ (lst : List (CallRegionRecord × Bool)) (s : σ),
    (∀ s1, (traceOlderRegions A mem f lst s).2 = .done s1 →
      s1 = visitorFold f s (traceOlderRegions A mem f lst s).1) ∧
    noInternalStop f s (traceOlderRegions A mem f lst s).1 := by
  intro lst
  induction lst with
  | nil =>
    intro s
    refine ⟨?_, trivial⟩
    intro s1 h
    simp [traceOlderRegions] at h
  | cons hd rest ih =>
    obtain ⟨rr, prevNull⟩ := hd
    intro s
    cases prevNull with
    | true =>
      by_cases hv : rr.old_last_wasm_exit_pc = 0 ∧ rr.old_last_wasm_exit_fp = 0 ∧
          rr.old_last_wasm_entry_sp = 0
      · simp only [traceOlderRegions, if_pos hv, if_true]
        refine ⟨?_, trivial⟩
        intro s1 h
        simp only [TraceOutcome.done.injEq] at h
        simp [h, visitorFold]
      · simp only [traceOlderRegions, if_neg hv, if_true]
        refine ⟨?_, trivial⟩
        intro s1 h
        simp at h
    | false =>
      by_cases hsp : rr.old_last_wasm_entry_sp = 0
      · by_cases hv : rr.old_last_wasm_exit_fp = 0 ∧ rr.old_last_wasm_exit_pc = 0
        · simp only [traceOlderRegions, Bool.false_eq_true, if_false, if_pos hsp,
            if_pos hv]
          exact ih s
        · simp only [traceOlderRegions, Bool.false_eq_true, if_false, if_pos hsp,
            if_neg hv]
          refine ⟨?_, trivial⟩
          intro s1 h
          simp at h
      · rcases htw : trace_through_wasm A mem f rr.old_last_wasm_exit_pc
            rr.old_last_wasm_exit_fp rr.old_last_wasm_entry_sp s with ⟨l, r⟩
        obtain ⟨-, -, -, hFold, hNoStop, hCont⟩ := trace_through_wasm_facts A mem f
          rr.old_last_wasm_exit_pc rr.old_last_wasm_exit_fp
          rr.old_last_wasm_entry_sp s
        rw [htw] at hFold hNoStop hCont
        cases r with
        | none =>
          simp only [traceOlderRegions, Bool.false_eq_true, if_false, if_neg hsp, htw]
          refine ⟨?_, hNoStop⟩
          intro s1 h
          simp at h
        | some p =>
          obtain ⟨s1, b⟩ := p
          cases b with
          | false =>
            simp only [traceOlderRegions, Bool.false_eq_true, if_false, if_neg hsp, htw]
            refine ⟨?_, hNoStop⟩
            intro s2 h
            simp only [TraceOutcome.done.injEq] at h
            subst h
            exact hFold s1 false rfl
          | true =>
            simp only [traceOlderRegions, Bool.false_eq_true, if_false, if_neg hsp, htw]
            obtain ⟨ihFold, ihNoStop⟩ := ih s1
            have hs1 : s1 = visitorFold f s l := hFold s1 true rfl
            have hall : allContinue f s l := by
              apply hCont
              intro s2 h
              simp at h
            refine ⟨?_, ?_⟩
            · intro s2 h
              have := ihFold s2 h
              rw [visitorFold_append, ← hs1]
              exact this
            · apply noInternalStop_append f l _ s hall
              rw [← hs1]
              exact ihNoStop

/-- Structural facts about the resolved part of a capture: a normal return
carries the fold of the visitor over all emitted frames, and the visitor
never broke except possibly at the last emitted frame. -/
theorem traceResolved_facts (A : Arch) (mem : Nat → Nat) (st : CallThreadState)
    (f : σ → Frame → σ × Bool) (pc fp : Nat) (s : σ) :
    (∀ s1, (traceResolved A mem st f pc fp s).2 = .done s1 →
      s1 = visitorFold f s (traceResolved A mem st f pc fp s).1) ∧
    noInternalStop f s (traceResolved A mem st f pc fp s).1 := by
  rcases htw : trace_through_wasm A mem f pc fp st.limits.last_wasm_entry_sp s
    with ⟨l, r⟩
  obtain ⟨-, -, -, hFold, hNoStop, hCont⟩ :=
    trace_through_wasm_facts A mem f pc fp st.limits.last_wasm_entry_sp s
  rw [htw] at hFold hNoStop hCont
  cases r with
  | none =>
    simp only [traceResolved, htw]
    refine ⟨?_, hNoStop⟩
    intro s1 h
    simp at h
  | some p =>
    obtain ⟨s1, b⟩ := p
    cases b with
    | false =>
      simp only [traceResolved, htw]
      refine ⟨?_, hNoStop⟩
      intro s2 h
      simp only [TraceOutcome.done.injEq] at h
      subst h
      exact hFold s1 false rfl
    | true =>
      simp only [traceResolved, htw]
      obtain ⟨ihFold, ihNoStop⟩ := traceOlderRegions_facts A mem f st.chain.iter s1
      have hs1 : s1 = visitorFold f s l := hFold s1 true rfl
      have hall : allContinue f s l := by
        apply hCont
        intro s2 h
        simp at h
      refine ⟨?_, ?_⟩
      · intro s2 h
        have := ihFold s2 h
        rw [visitorFold_append, ← hs1]
        exact this
      · apply noInternalStop_append f l _ s hall
        rw [← hs1]
        exact ihNoStop

/-- Structural facts about a whole capture: a normal return carries the
fold of the visitor over all emitted frames, and the visitor never broke
except possibly at the last emitted frame. -/
theorem trace_with_trap_state_facts (A : Arch) (mem : Nat → Nat)
    (st : CallThreadState) (ov : Option (Nat × Nat)) (f : σ → Frame → σ × Bool)
    (s : σ) :
    (∀ s1, (trace_with_trap_state A mem st ov f s).2 = .done s1 →
      s1 = visitorFold f s (trace_with_trap_state A mem st ov f s).1) ∧
    noInternalStop f s (trace_with_trap_state A mem st ov f s).1 := by
  cases ov with
  | some p =>
    obtain ⟨pc, fp⟩ := p
    exact traceResolved_facts A mem st f pc fp s
  | none =>
    by_cases hpc : st.limits.last_wasm_exit_pc = 0
    · by_cases hfp : st.limits.last_wasm_exit_fp = 0
      · simp only [trace_with_trap_state, hpc, hfp, if_pos rfl, if_true]
        refine ⟨?_, trivial⟩
        intro s1 h
        simp only [TraceOutcome.done.injEq] at h
        simp [h, visitorFold]
      · simp only [trace_with_trap_state, if_pos hpc, if_neg hfp]
        refine ⟨?_, trivial⟩
        intro s1 h
        simp at h
    · simp only [trace_with_trap_state, if_neg hpc]
      exact traceResolved_facts A mem st f st.limits.last_wasm_exit_pc
        st.limits.last_wasm_exit_fp s

/-- The loop over older regions, run on the entry list of an actual chain,
never falls off the end of the iteration: the chain always ends at the
entry whose `prev` pointer is null. -/
theorem traceOlderRegions_iter_ne_unreachable (A : Arch) (mem : Nat → Nat)
    (f : σ → Frame → σ × Bool) :
    ∀ (c : CallStateChain) (s : σ),
      (traceOlderRegions A mem f c.iter s).2 ≠ .abortUnreachable := by
  intro c
  induction c with
  | last r =>
    intro s
    by_cases hv : r.old_last_wasm_exit_pc = 0 ∧ r.old_last_wasm_exit_fp = 0 ∧
        r.old_last_wasm_entry_sp = 0
    · simp [CallStateChain.iter, traceOlderRegions, hv]
    · simp [CallStateChain.iter, traceOlderRegions, hv]
  | cons r p ih =>
    intro s
    by_cases hsp : r.old_last_wasm_entry_sp = 0
    · by_cases hv : r.old_last_wasm_exit_fp = 0 ∧ r.old_last_wasm_exit_pc = 0
      · simp only [CallStateChain.iter, traceOlderRegions, Bool.false_eq_true,
          if_false, if_pos hsp, if_pos hv]
        exact ih s
      · simp [CallStateChain.iter, traceOlderRegions, hsp, hv]
    · rcases htw : trace_through_wasm A mem f r.old_last_wasm_exit_pc
          r.old_last_wasm_exit_fp r.old_last_wasm_entry_sp s with ⟨l, rr⟩
      cases rr with
      | none =>
        simp [CallStateChain.iter, traceOlderRegions, hsp, htw]
      | some q =>
        obtain ⟨s1, b⟩ := q
        cases b with
        | false =>
          simp [CallStateChain.iter, traceOlderRegions, hsp, htw]
        | true =>
          simp only [CallStateChain.iter, traceOlderRegions, Bool.false_eq_true,
            if_false, if_neg hsp, htw]
          exact ih s1

/-- A capture never ends in the final `unreachable!()`. -/
theorem trace_with_trap_state_ne_unreachable_aux (A : Arch) (mem : Nat → Nat)
    (st : CallThreadState) (ov : Option (Nat × Nat)) (f : σ → Frame → σ × Bool)
    (s : σ) :
    (trace_with_trap_state A mem st ov f s).2 ≠ .abortUnreachable := by
  have hres : ∀ pc fp s0,
      (traceResolved A mem st f pc fp s0).2 ≠ TraceOutcome.abortUnreachable := by
    intro pc fp s0
    rcases htw : trace_through_wasm A mem f pc fp st.limits.last_wasm_entry_sp s0
      with ⟨l, r⟩
    cases r with
    | none => simp [traceResolved, htw]
    | some q =>
      obtain ⟨s1, b⟩ := q
      cases b with
      | false => simp [traceResolved, htw]
      | true =>
        simp only [traceResolved, htw]
        exact traceOlderRegions_iter_ne_unreachable A mem f st.chain s1
  cases ov with
  | some p =>
    obtain ⟨pc, fp⟩ := p
    exact hres pc fp s
  | none =>
    by_cases hpc : st.limits.last_wasm_exit_pc = 0
    · by_cases hfp : st.limits.last_wasm_exit_fp = 0
      · simp [trace_with_trap_state, hpc, hfp]
      · simp [trace_with_trap_state, hpc, hfp]
    · simp only [trace_with_trap_state, if_neg hpc]
      exact hres st.limits.last_wasm_exit_pc st.limits.last_wasm_exit_fp s


/-- Two visitors that always continue cannot influence the control flow of
a region walk: the walk emits the same frames and ends the same way. -/
theorem traceLoop_indep {τ : Type} (A : Arch) (mem : Nat → Nat)
    (f : σ → Frame → σ × Bool) (g : τ → Frame → τ × Bool) (tsp : Nat)
    (hf : alwaysContinues f) (hg : alwaysContinues g) :
    ∀ n pc fp s t, tsp + 1 - fp ≤ n →
    (traceLoop A mem f tsp pc fp s).1 = (traceLoop A mem g tsp pc fp t).1 ∧
    optKind (traceLoop A mem f tsp pc fp s).2 =
      optKind (traceLoop A mem g tsp pc fp t).2 := by
  intro n
  induction n with
  | zero =>
    intro pc fp s t hn
    rw [traceLoop_eq_not_ge A mem f tsp pc fp s (by omega),
      traceLoop_eq_not_ge A mem g tsp pc fp t (by omega)]
    exact ⟨rfl, rfl⟩
  | succ n ih =>
    intro pc fp s t hn
    by_cases h1 : tsp ≥ fp
    · by_cases h2 : A.fp_is_aligned fp = true
      · by_cases h4 : A.NEXT_OLDER_FP_FROM_FP_OFFSET = 0
        · by_cases h5 : A.reached_entry_sp
              (mem (fp + 8 * A.NEXT_OLDER_FP_FROM_FP_OFFSET)) tsp = true
          · rw [traceLoop_eq_reached A mem f tsp pc fp s h1 h2 (hf s ⟨pc, fp⟩) h4 h5,
              traceLoop_eq_reached A mem g tsp pc fp t h1 h2 (hg t ⟨pc, fp⟩) h4 h5]
            exact ⟨rfl, rfl⟩
          · by_cases h6 : mem (fp + 8 * A.NEXT_OLDER_FP_FROM_FP_OFFSET) > fp
            · rw [traceLoop_eq_next A mem f tsp pc fp s h1 h2 (hf s ⟨pc, fp⟩) h4
                  (Bool.not_eq_true _ ▸ h5) h6,
                traceLoop_eq_next A mem g tsp pc fp t h1 h2 (hg t ⟨pc, fp⟩) h4
                  (Bool.not_eq_true _ ▸ h5) h6]
              have hrec := ih (A.get_next_older_pc_from_fp mem fp)
                (mem (fp + 8 * A.NEXT_OLDER_FP_FROM_FP_OFFSET))
                (f s ⟨pc, fp⟩).1 (g t ⟨pc, fp⟩).1 (by omega)
              exact ⟨by rw [hrec.1], hrec.2⟩
            · rw [traceLoop_eq_not_growing A mem f tsp pc fp s h1 h2 (hf s ⟨pc, fp⟩)
                  h4 (Bool.not_eq_true _ ▸ h5) h6,
                traceLoop_eq_not_growing A mem g tsp pc fp t h1 h2 (hg t ⟨pc, fp⟩)
                  h4 (Bool.not_eq_true _ ▸ h5) h6]
              exact ⟨rfl, rfl⟩
        · rw [traceLoop_eq_bad_offset A mem f tsp pc fp s h1 h2 (hf s ⟨pc, fp⟩) h4,
            traceLoop_eq_bad_offset A mem g tsp pc fp t h1 h2 (hg t ⟨pc, fp⟩) h4]
          exact ⟨rfl, rfl⟩
      · rw [traceLoop_eq_not_aligned A mem f tsp pc fp s h1 (Bool.not_eq_true _ ▸ h2),
          traceLoop_eq_not_aligned A mem g tsp pc fp t h1 (Bool.not_eq_true _ ▸ h2)]
        exact ⟨rfl, rfl⟩
    · rw [traceLoop_eq_not_ge A mem f tsp pc fp s h1,
        traceLoop_eq_not_ge A mem g tsp pc fp t h1]
      exact ⟨rfl, rfl⟩

/-- `traceLoop_indep` carried through `trace_through_wasm`. -/
theorem trace_through_wasm_indep {τ : Type} (A : Arch) (mem : Nat → Nat)
    (f : σ → Frame → σ × Bool) (g : τ → Frame → τ × Bool)
    (hf : alwaysContinues f) (hg : alwaysContinues g) (pc fp tsp : Nat)
    (s : σ) (t : τ) :
    (trace_through_wasm A mem f pc fp tsp s).1 =
      (trace_through_wasm A mem g pc fp tsp t).1 ∧
    optKind (trace_through_wasm A mem f pc fp tsp s).2 =
      optKind (trace_through_wasm A mem g pc fp tsp t).2 := by
  unfold trace_through_wasm
  by_cases hz : pc ≠ 0 ∧ fp ≠ 0 ∧ tsp ≠ 0
  · by_cases ha : A.entry_sp_is_aligned tsp = true
    · rw [if_pos hz, if_pos ha, if_pos hz, if_pos ha]
      exact traceLoop_indep A mem f g tsp hf hg (tsp + 1 - fp) pc fp s t le_rfl
    · rw [if_pos hz, if_neg ha, if_pos hz, if_neg ha]
      exact ⟨rfl, rfl⟩
  · rw [if_neg hz, if_neg hz]
    exact ⟨rfl, rfl⟩

/-- `traceLoop_indep` carried through the loop over older regions. -/
theorem traceOlderRegions_indep {τ : Type} (A : Arch) (mem : Nat → Nat)
    (f : σ → Frame → σ × Bool) (g : τ → Frame → τ × Bool)
    (hf : alwaysContinues f) (hg : alwaysContinues g) :
    ∀ (lst : List (CallRegionRecord × Bool)) (s : σ) (t : τ),
    (traceOlderRegions A mem f lst s).1 = (traceOlderRegions A mem g lst t).1 ∧
    (traceOlderRegions A mem f lst s).2.kind =
      (traceOlderRegions A mem g lst t).2.kind := by
  intro lst
  induction lst with
  | nil =>
    intro s t
    exact ⟨rfl, rfl⟩
  | cons hd rest ih =>
    obtain ⟨rr, prevNull⟩ := hd
    intro s t
    cases prevNull with
    | true =>
      by_cases hv : rr.old_last_wasm_exit_pc = 0 ∧ rr.old_last_wasm_exit_fp = 0 ∧
          rr.old_last_wasm_entry_sp = 0
      · simp [traceOlderRegions, hv, TraceOutcome.kind]
      · simp [traceOlderRegions, hv, TraceOutcome.kind]
    | false =>
      by_cases hsp : rr.old_last_wasm_entry_sp = 0
      · by_cases hv : rr.old_last_wasm_exit_fp = 0 ∧ rr.old_last_wasm_exit_pc = 0
        · simp only [traceOlderRegions, Bool.false_eq_true, if_false, if_pos hsp,
            if_pos hv]
          exact ih s t
        · simp [traceOlderRegions, hsp, hv, TraceOutcome.kind]
      · rcases htwf : trace_through_wasm A mem f rr.old_last_wasm_exit_pc
            rr.old_last_wasm_exit_fp rr.old_last_wasm_entry_sp s with ⟨lf, rf⟩
        rcases htwg : trace_through_wasm A mem g rr.old_last_wasm_exit_pc
            rr.old_last_wasm_exit_fp rr.old_last_wasm_entry_sp t with ⟨lg, rg⟩
        have hind := trace_through_wasm_indep A mem f g hf hg
          rr.old_last_wasm_exit_pc rr.old_last_wasm_exit_fp
          rr.old_last_wasm_entry_sp s t
        rw [htwf, htwg] at hind
        obtain ⟨hl, hk⟩ := hind
        simp only at hl hk
        subst hl
        cases rf with
        | none =>
          cases rg with
          | none =>
            simp [traceOlderRegions, hsp, htwf, htwg, TraceOutcome.kind]
          | some q =>
            simp [optKind] at hk
        | some p =>
          obtain ⟨s1, b⟩ := p
          cases rg with
          | none =>
            simp [optKind] at hk
          | some q =>
            obtain ⟨t1, b2⟩ := q
            simp only [optKind, Option.some.injEq] at hk
            subst hk
            cases b with
            | false =>
              simp [traceOlderRegions, hsp, htwf, htwg, TraceOutcome.kind]
            | true =>
              simp only [traceOlderRegions, Bool.false_eq_true, if_false,
                if_neg hsp, htwf, htwg]
              have := ih s1 t1
              exact ⟨by rw [this.1], this.2⟩

/-- Visitor independence for a whole capture: two always-continue visitors
see the same frame sequence and the capture ends the same way. -/
theorem trace_with_trap_state_indep {τ : Type} (A : Arch) (mem : Nat → Nat)
    (st : CallThreadState) (ov : Option (Nat × Nat))
    (f : σ → Frame → σ × Bool) (g : τ → Frame → τ × Bool)
    (hf : alwaysContinues f) (hg : alwaysContinues g) (s : σ) (t : τ) :
    (trace_with_trap_state A mem st ov f s).1 =
      (trace_with_trap_state A mem st ov g t).1 ∧
    (trace_with_trap_state A mem st ov f s).2.kind =
      (trace_with_trap_state A mem st ov g t).2.kind := by
  have hres : ∀ pc fp (s0 : σ) (t0 : τ),
      (traceResolved A mem st f pc fp s0).1 = (traceResolved A mem st g pc fp t0).1 ∧
      (traceResolved A mem st f pc fp s0).2.kind =
        (traceResolved A mem st g pc fp t0).2.kind := by
    intro pc fp s0 t0
    rcases htwf : trace_through_wasm A mem f pc fp st.limits.last_wasm_entry_sp s0
      with ⟨lf, rf⟩
    rcases htwg : trace_through_wasm A mem g pc fp st.limits.last_wasm_entry_sp t0
      with ⟨lg, rg⟩
    have hind := trace_through_wasm_indep A mem f g hf hg pc fp
      st.limits.last_wasm_entry_sp s0 t0
    rw [htwf, htwg] at hind
    obtain ⟨hl, hk⟩ := hind
    simp only at hl hk
    subst hl
    cases rf with
    | none =>
      cases rg with
      | none => simp [traceResolved, htwf, htwg, TraceOutcome.kind]
      | some q => simp [optKind] at hk
    | some p =>
      obtain ⟨s1, b⟩ := p
      cases rg with
      | none => simp [optKind] at hk
      | some q =>
        obtain ⟨t1, b2⟩ := q
        simp only [optKind, Option.some.injEq] at hk
        subst hk
        cases b with
        | false => simp [traceResolved, htwf, htwg, TraceOutcome.kind]
        | true =>
          simp only [traceResolved, htwf, htwg]
          have := traceOlderRegions_indep A mem f g hf hg st.chain.iter s1 t1
          exact ⟨by rw [this.1], this.2⟩
  cases ov with
  | some p =>
    obtain ⟨pc, fp⟩ := p
    exact hres pc fp s t
  | none =>
    by_cases hpc : st.limits.last_wasm_exit_pc = 0
    · by_cases hfp : st.limits.last_wasm_exit_fp = 0
      · simp [trace_with_trap_state, hpc, hfp, TraceOutcome.kind]
      · simp [trace_with_trap_state, hpc, hfp, TraceOutcome.kind]
    · simp only [trace_with_trap_state, if_neg hpc]
      exact hres st.limits.last_wasm_exit_pc st.limits.last_wasm_exit_fp s t

/-- The collecting visitor always continues. -/
theorem collectVisitor_alwaysContinues : alwaysContinues collectVisitor :=
  fun _ _ => rfl

/-- Folding the collecting visitor appends the visited frames to the
accumulator. -/
theorem visitorFold_collect : ∀ (l : List Frame) (acc : List Frame),
    visitorFold collectVisitor acc l = acc ++ l := by
  intro l
  induction l with
  | nil => intro acc; simp [visitorFold]
  | cons fr rest ih =>
    intro acc
    rw [visitorFold_cons]
    simp only [collectVisitor]
    rw [ih]
    simp


/-- A region walk over a well-formed synthetic region emits exactly the
region's frames and completes at its boundary. -/
theorem traceLoop_wfRegion (A : Arch) (mem : Nat → Nat)
    (f : σ → Frame → σ × Bool) (tsp : Nat)
    (hA : A.NEXT_OLDER_FP_FROM_FP_OFFSET = 0) (hf : alwaysContinues f) :
    ∀ (rest : List Frame) (fr : Frame) (s : σ),
      wfRegionFrames A mem tsp (fr :: rest) = true →
      traceLoop A mem f tsp fr.pc fr.fp s =
        (fr :: rest, some (visitorFold f s (fr :: rest), true)) := by
  intro rest
  induction rest with
  | nil =>
    intro fr s hwf
    simp only [wfRegionFrames, Bool.and_eq_true, decide_eq_true_eq] at hwf
    obtain ⟨⟨hle, hal⟩, hreach⟩ := hwf
    rw [traceLoop_eq_reached A mem f tsp fr.pc fr.fp s hle hal (hf s ⟨fr.pc, fr.fp⟩)
      hA hreach]
    rw [visitorFold_cons, visitorFold_nil]
  | cons fr2 rest2 ih =>
    intro fr s hwf
    simp only [wfRegionFrames, Bool.and_eq_true, decide_eq_true_eq,
      Bool.not_eq_true'] at hwf
    obtain ⟨⟨⟨⟨⟨⟨hle, hal⟩, hreach⟩, hm⟩, hpc⟩, hgrow⟩, hwf2⟩ := hwf
    rw [traceLoop_eq_next A mem f tsp fr.pc fr.fp s hle hal (hf s ⟨fr.pc, fr.fp⟩)
      hA hreach (by omega)]
    rw [hm, hpc]
    have hwf2' : wfRegionFrames A mem tsp (fr2 :: rest2) = true := by
      simpa [wfRegionFrames] using hwf2
    have := ih fr2 (f s ⟨fr.pc, fr.fp⟩).1 hwf2'
    rw [this]
    rfl

/-- `traceLoop_wfRegion` carried through the assertion prologue of
`trace_through_wasm`. -/
theorem trace_through_wasm_wfRegion (A : Arch) (mem : Nat → Nat)
    (f : σ → Frame → σ × Bool) (tsp : Nat)
    (hA : A.NEXT_OLDER_FP_FROM_FP_OFFSET = 0) (hf : alwaysContinues f)
    (fr : Frame) (rest : List Frame) (s : σ)
    (hwf : wfRegion A mem (fr :: rest) tsp = true) :
    trace_through_wasm A mem f fr.pc fr.fp tsp s =
      (fr :: rest, some (visitorFold f s (fr :: rest), true)) := by
  simp only [wfRegion, Bool.and_eq_true, decide_eq_true_eq] at hwf
  obtain ⟨⟨⟨⟨hpc, hfp⟩, hsp⟩, hal⟩, hwf⟩ := hwf
  unfold trace_through_wasm
  rw [if_pos ⟨hpc, hfp, hsp⟩, if_pos hal]
  exact traceLoop_wfRegion A mem f tsp hA hf rest fr s hwf


/-- Over a chain matching a list of well-formed synthetic regions, the loop
over older regions emits exactly the concatenation of the regions' frames,
next-older-first, and terminates normally at the sentinel. -/
theorem traceOlderRegions_chainMatches (A : Arch) (mem : Nat → Nat)
    (f : σ → Frame → σ × Bool)
    (hA : A.NEXT_OLDER_FP_FROM_FP_OFFSET = 0) (hf : alwaysContinues f) :
    ∀ (c : CallStateChain) (regions : List (List Frame × Nat)) (s : σ),
      chainMatches A mem c regions = true →
      traceOlderRegions A mem f c.iter s =
        ((regions.map Prod.fst).flatten,
          .done (visitorFold f s (regions.map Prod.fst).flatten)) := by
  intro c
  induction c with
  | last r =>
    intro regions s hm
    cases regions with
    | nil =>
      simp only [chainMatches, Bool.and_eq_true, decide_eq_true_eq] at hm
      obtain ⟨⟨hp, hq⟩, hr⟩ := hm
      simp [CallStateChain.iter, traceOlderRegions, hp, hq, hr, visitorFold]
    | cons hd tl =>
      simp [chainMatches] at hm
  | cons r p ih =>
    intro regions s hm
    by_cases hsp : r.old_last_wasm_entry_sp = 0
    · simp only [chainMatches] at hm
      rw [if_pos hsp] at hm
      simp only [Bool.and_eq_true, decide_eq_true_eq] at hm
      obtain ⟨⟨hfp0, hpc0⟩, hm⟩ := hm
      have hv : r.old_last_wasm_exit_fp = 0 ∧ r.old_last_wasm_exit_pc = 0 :=
        ⟨hfp0, hpc0⟩
      simp only [CallStateChain.iter, traceOlderRegions, Bool.false_eq_true,
        if_false, if_pos hsp, if_pos hv]
      exact ih regions s hm
    · simp only [chainMatches] at hm
      rw [if_neg hsp] at hm
      cases regions with
      | nil => simp at hm
      | cons hd rest =>
        obtain ⟨frames, sp⟩ := hd
        cases frames with
        | nil => simp at hm
        | cons fr tail =>
          simp only [Bool.and_eq_true, decide_eq_true_eq] at hm
          obtain ⟨⟨⟨⟨hpc, hfp⟩, hspeq⟩, hwf⟩, hm⟩ := hm
          have htw := trace_through_wasm_wfRegion A mem f sp hA hf fr tail s hwf
          have hsp' : ¬ sp = 0 := by
            rw [← hspeq]
            exact hsp
          have hrec := ih rest (visitorFold f s (fr :: tail)) hm
          simp only [CallStateChain.iter, traceOlderRegions, Bool.false_eq_true,
            if_false, hpc, hfp, hspeq, if_neg hsp', htw, hrec]
          simp only [List.map_cons, List.flatten_cons]
          rw [visitorFold_append]


/-- Claim C1 counterexample: when a trap override with `pc = 0` (and
`fp = 0`) is supplied, the capture does not terminate successfully with the
collected frames — it aborts on the `pc ≠ 0` assertion of the region walk,
because the `pc == 0` early-return exists only on the no-override path. -/
theorem c1_counterexample :
    (trace_with_trap_state archX64 memTwoRegions stateEmpty (some (0, 0))
      unitV ()).2 = TraceOutcome.abortAssert ∧
    (trace_with_trap_state archX64 memTwoRegions stateEmpty (some (0, 0))
      unitV ()).2 ≠ TraceOutcome.done () := by
  constructor
  · rfl
  · decide

/-- Claim C1 (amended): for every capture without a trap override, if the
live boundary record's `pc` is `0`, then `fp = 0` is asserted — the capture
terminates successfully with no frames when `fp = 0` and hits the
fatal-abort path when `fp ≠ 0`; a trap override with `pc = 0` instead
aborts in the region walk. -/
theorem c1_no_override_pc_zero (A : Arch) (mem : Nat → Nat)
    (st : CallThreadState) (f : σ → Frame → σ × Bool) (s : σ)
    (hpc : st.limits.last_wasm_exit_pc = 0) :
    trace_with_trap_state A mem st none f s =
      ([], if st.limits.last_wasm_exit_fp = 0 then TraceOutcome.done s
        else TraceOutcome.abortAssert) := by
  by_cases hfp : st.limits.last_wasm_exit_fp = 0
  · simp [trace_with_trap_state, hpc, hfp]
  · simp [trace_with_trap_state, hpc, hfp]

/-- Witness for C1 (amended) at a concrete empty thread state. -/
theorem c1_no_override_pc_zero_witness :
    stateEmpty.limits.last_wasm_exit_pc = 0 ∧
    trace_with_trap_state archX64 memTwoRegions stateEmpty none unitV () =
      ([], if stateEmpty.limits.last_wasm_exit_fp = 0 then TraceOutcome.done ()
        else TraceOutcome.abortAssert) :=
  ⟨rfl, c1_no_override_pc_zero archX64 memTwoRegions stateEmpty unitV () rfl⟩

/-- Claim C2: for every capture and every visitor, once the visitor breaks
on an emitted frame the whole multi-region capture stops: in the emitted
sequence, every frame but the last received a continue, so no frame of the
current region past the break and no frame of any older region is ever
emitted. -/
theorem c2_stop_aborts_whole_capture (A : Arch) (mem : Nat → Nat)
    (st : CallThreadState) (ov : Option (Nat × Nat)) (f : σ → Frame → σ × Bool)
    (s : σ) :
    noInternalStop f s (trace_with_trap_state A mem st ov f s).1 :=
  (trace_with_trap_state_facts A mem st ov f s).2

/-- Claim C3: for every single-region walk that completes without aborting,
the emitted frame pointers are monotonically non-decreasing from innermost
to outermost and every emitted frame pointer is at most the region's entry
stack pointer. -/
theorem c3_region_fp_monotone (A : Arch) (mem : Nat → Nat)
    (f : σ → Frame → σ × Bool) (pc fp tsp : Nat) (s : σ) (l : List Frame)
    (r : σ × Bool) (h : trace_through_wasm A mem f pc fp tsp s = (l, some r)) :
    List.Chain' (fun a b => a ≤ b) (l.map Frame.fp) ∧ ∀ fr ∈ l, fr.fp ≤ tsp := by
  obtain ⟨-, hChain, hBound, -, -, -⟩ := trace_through_wasm_facts A mem f pc fp tsp s
  rw [h] at hChain hBound
  exact ⟨List.Chain'.imp (fun a b hab => le_of_lt hab) hChain, hBound⟩

/-- Witness for C3 on a concrete two-frame region. -/
theorem c3_region_fp_monotone_witness :
    trace_through_wasm archX64 memTwoRegions unitV 100 16 48 () =
      ([⟨100, 16⟩, ⟨101, 32⟩], some ((), true)) ∧
    List.Chain' (fun a b => a ≤ b)
      ([Frame.mk 100 16, Frame.mk 101 32].map Frame.fp) ∧
    ∀ fr ∈ [Frame.mk 100 16, Frame.mk 101 32], fr.fp ≤ 48 := by
  have h : trace_through_wasm archX64 memTwoRegions unitV 100 16 48 () =
      ([⟨100, 16⟩, ⟨101, 32⟩], some ((), true)) := by
    have hw := trace_through_wasm_wfRegion archX64 memTwoRegions unitV 48 rfl
      (fun _ _ => rfl) ⟨100, 16⟩ [⟨101, 32⟩] () (by decide)
    exact hw
  exact ⟨h, c3_region_fp_monotone archX64 memTwoRegions unitV 100 16 48 () _ _ h⟩

/-- Claim C4: on a well-formed synthetic stack — an innermost well-formed
region recorded in the live boundary record, and a chain matching a list of
older synthetic regions with vacuous entries skipped and a vacuous
sentinel — a full capture with an always-continue visitor emits exactly the
innermost region's frames followed by each older region's frames,
next-older-first, and terminates normally; in particular it emits exactly
the stack's total number of real frames, with no duplication or
reordering. -/
theorem c4_full_capture (A : Arch) (mem : Nat → Nat) (st : CallThreadState)
    (f : σ → Frame → σ × Bool) (s : σ) (fr0 : Frame) (rest0 : List Frame)
    (regions : List (List Frame × Nat)) (hf : alwaysContinues f)
    (hA : A.NEXT_OLDER_FP_FROM_FP_OFFSET = 0)
    (hpc : st.limits.last_wasm_exit_pc = fr0.pc)
    (hfp : st.limits.last_wasm_exit_fp = fr0.fp)
    (hwf0 : wfRegion A mem (fr0 :: rest0) st.limits.last_wasm_entry_sp = true)
    (hchain : chainMatches A mem st.chain regions = true) :
    trace_with_trap_state A mem st none f s =
      ((fr0 :: rest0) ++ (regions.map Prod.fst).flatten,
        TraceOutcome.done
          (visitorFold f s ((fr0 :: rest0) ++ (regions.map Prod.fst).flatten))) := by
  have hwf0' := hwf0
  simp only [wfRegion, Bool.and_eq_true, decide_eq_true_eq] at hwf0'
  have hpc0 : fr0.pc ≠ 0 := hwf0'.1.1.1.1
  have hne : ¬ st.limits.last_wasm_exit_pc = 0 := by
    rw [hpc]
    exact hpc0
  have htw := trace_through_wasm_wfRegion A mem f st.limits.last_wasm_entry_sp
    hA hf fr0 rest0 s hwf0
  have hold := traceOlderRegions_chainMatches A mem f hA hf st.chain regions
    (visitorFold f s (fr0 :: rest0)) hchain
  simp only [trace_with_trap_state, if_neg hne, traceResolved, hpc, hfp, htw, hold]
  rw [visitorFold_append]
  rw [if_neg hpc0]

/-- Witness for C4 on a concrete two-region stack with one interleaved
vacuous record. -/
theorem c4_full_capture_witness :
    alwaysContinues unitV ∧
    archX64.NEXT_OLDER_FP_FROM_FP_OFFSET = 0 ∧
    stateTwoRegions.limits.last_wasm_exit_pc = (Frame.mk 100 16).pc ∧
    stateTwoRegions.limits.last_wasm_exit_fp = (Frame.mk 100 16).fp ∧
    wfRegion archX64 memTwoRegions [Frame.mk 100 16, Frame.mk 101 32]
      stateTwoRegions.limits.last_wasm_entry_sp = true ∧
    chainMatches archX64 memTwoRegions stateTwoRegions.chain
      [([Frame.mk 200 64], 80)] = true ∧
    trace_with_trap_state archX64 memTwoRegions stateTwoRegions none unitV () =
      ((Frame.mk 100 16 :: [Frame.mk 101 32]) ++
        (([([Frame.mk 200 64], 80)]).map Prod.fst).flatten,
        TraceOutcome.done
          (visitorFold unitV () ((Frame.mk 100 16 :: [Frame.mk 101 32]) ++
            (([([Frame.mk 200 64], 80)]).map Prod.fst).flatten))) :=
  ⟨fun _ _ => rfl, rfl, rfl, rfl, by decide, by decide,
    c4_full_capture archX64 memTwoRegions stateTwoRegions unitV () ⟨100, 16⟩
      [⟨101, 32⟩] [([⟨200, 64⟩], 80)] (fun _ _ => rfl) rfl rfl rfl (by decide)
      (by decide)⟩

/-- Claim C5: a region walk whose inputs satisfy the preconditions (all
three inputs non-zero, bound aligned, bound at or above the entry frame
pointer, entry frame pointer aligned) always emits the entry frame first,
before any boundary check can end the region. -/
theorem c5_entry_frame_emitted (A : Arch) (mem : Nat → Nat)
    (f : σ → Frame → σ × Bool) (pc fp tsp : Nat) (s : σ)
    (hpc : pc ≠ 0) (hfp : fp ≠ 0) (hsp : tsp ≠ 0)
    (hespa : A.entry_sp_is_aligned tsp = true)
    (hge : tsp ≥ fp) (hfpa : A.fp_is_aligned fp = true) :
    (trace_through_wasm A mem f pc fp tsp s).1.head? = some ⟨pc, fp⟩ := by
  unfold trace_through_wasm
  rw [if_pos ⟨hpc, hfp, hsp⟩, if_pos hespa]
  by_cases h3 : (f s ⟨pc, fp⟩).2 = true
  · by_cases h4 : A.NEXT_OLDER_FP_FROM_FP_OFFSET = 0
    · by_cases h5 : A.reached_entry_sp
          (mem (fp + 8 * A.NEXT_OLDER_FP_FROM_FP_OFFSET)) tsp = true
      · rw [traceLoop_eq_reached A mem f tsp pc fp s hge hfpa h3 h4 h5]
        rfl
      · by_cases h6 : mem (fp + 8 * A.NEXT_OLDER_FP_FROM_FP_OFFSET) > fp
        · rw [traceLoop_eq_next A mem f tsp pc fp s hge hfpa h3 h4
            (Bool.not_eq_true _ ▸ h5) h6]
          rfl
        · rw [traceLoop_eq_not_growing A mem f tsp pc fp s hge hfpa h3 h4
            (Bool.not_eq_true _ ▸ h5) h6]
          rfl
    · rw [traceLoop_eq_bad_offset A mem f tsp pc fp s hge hfpa h3 h4]
      rfl
  · rw [traceLoop_eq_break A mem f tsp pc fp s hge hfpa (Bool.not_eq_true _ ▸ h3)]
    rfl

/-- Witness for C5 at a concrete region entry. -/
theorem c5_entry_frame_emitted_witness :
    (100 : Nat) ≠ 0 ∧ (16 : Nat) ≠ 0 ∧ (48 : Nat) ≠ 0 ∧
    archX64.entry_sp_is_aligned 48 = true ∧ (48 : Nat) ≥ 16 ∧
    archX64.fp_is_aligned 16 = true ∧
    (trace_through_wasm archX64 memTwoRegions unitV 100 16 48 ()).1.head? =
      some ⟨100, 16⟩ :=
  ⟨by decide, by decide, by decide, by decide, by decide, by decide,
    c5_entry_frame_emitted archX64 memTwoRegions unitV 100 16 48 () (by decide)
      (by decide) (by decide) (by decide) (by decide) (by decide)⟩

/-- Claim C6: a vacuous call-region record (zero saved entry stack pointer
and, per the data-model invariant, zero saved exit registers) contributes
no frames to the capture and does not stop the traversal: the loop over
older regions behaves exactly as if the record were absent. -/
theorem c6_vacuous_record_skipped (A : Arch) (mem : Nat → Nat)
    (f : σ → Frame → σ × Bool) (s : σ) (v : CallRegionRecord)
    (rest : List (CallRegionRecord × Bool))
    (hsp : v.old_last_wasm_entry_sp = 0)
    (hfp : v.old_last_wasm_exit_fp = 0)
    (hpc : v.old_last_wasm_exit_pc = 0) :
    traceOlderRegions A mem f ((v, false) :: rest) s =
      traceOlderRegions A mem f rest s := by
  simp [traceOlderRegions, hsp, hfp, hpc]

/-- Witness for C6 at a concrete vacuous record. -/
theorem c6_vacuous_record_skipped_witness :
    (CallRegionRecord.mk 0 0 0).old_last_wasm_entry_sp = 0 ∧
    (CallRegionRecord.mk 0 0 0).old_last_wasm_exit_fp = 0 ∧
    (CallRegionRecord.mk 0 0 0).old_last_wasm_exit_pc = 0 ∧
    traceOlderRegions archX64 memTwoRegions unitV
        [(⟨0, 0, 0⟩, false), (⟨0, 0, 0⟩, true)] () =
      traceOlderRegions archX64 memTwoRegions unitV [(⟨0, 0, 0⟩, true)] () :=
  ⟨rfl, rfl, rfl,
    c6_vacuous_record_skipped archX64 memTwoRegions unitV () ⟨0, 0, 0⟩
      [(⟨0, 0, 0⟩, true)] rfl rfl rfl⟩

/-- Claim C7: `Backtrace.frames` yields exactly the stored finite frame
list, innermost-first as stored, and iterating it twice yields identical
sequences. -/
theorem c7_frames_repeatable (b : Backtrace) :
    Backtrace.frames b = b.toList ∧ Backtrace.frames b = Backtrace.frames b :=
  ⟨rfl, rfl⟩

/-- Claim C8: reaching the sentinel record (the entry with no `prev`)
terminates the capture normally and emits nothing when the sentinel is
vacuous; a non-vacuous sentinel triggers the fatal-abort path rather than
being skipped or reported as a recoverable result. -/
theorem c8_sentinel_must_be_vacuous (A : Arch) (mem : Nat → Nat)
    (f : σ → Frame → σ × Bool) (s : σ) (r : CallRegionRecord) :
    traceOlderRegions A mem f (CallStateChain.iter (.last r)) s =
      ([], if r.old_last_wasm_exit_pc = 0 ∧ r.old_last_wasm_exit_fp = 0 ∧
          r.old_last_wasm_entry_sp = 0 then TraceOutcome.done s
        else TraceOutcome.abortAssert) := by
  by_cases hv : r.old_last_wasm_exit_pc = 0 ∧ r.old_last_wasm_exit_fp = 0 ∧
      r.old_last_wasm_entry_sp = 0
  · simp [CallStateChain.iter, traceOlderRegions, hv]
  · simp [CallStateChain.iter, traceOlderRegions, hv]


/-- Claim C9: the collecting capture returns a `Backtrace` whose frame
sequence is exactly, and in the same order as, the frame sequence the
streaming walk passes to any always-continue visitor on the same inputs;
both end the same way, and an aborting walk yields no `Backtrace`. -/
theorem c9_collect_refines_stream {τ : Type} (A : Arch) (mem : Nat → Nat)
    (st : CallThreadState) (ov : Option (Nat × Nat))
    (g : τ → Frame → τ × Bool) (t : τ) (hg : alwaysContinues g) :
    (Backtrace.new_with_trap_state A mem st ov).map Backtrace.frames =
      streamResult (trace_with_trap_state A mem st ov g t) := by
  obtain ⟨hFold, -⟩ := trace_with_trap_state_facts A mem st ov collectVisitor []
  obtain ⟨hl, hk⟩ := trace_with_trap_state_indep A mem st ov collectVisitor g
    collectVisitor_alwaysContinues hg [] t
  rcases hc : trace_with_trap_state A mem st ov collectVisitor [] with ⟨lc, oc⟩
  rcases hgr : trace_with_trap_state A mem st ov g t with ⟨lg, og⟩
  rw [hc, hgr] at hl hk
  rw [hc] at hFold
  cases oc with
  | done s1 =>
    have hs1 : s1 = lc := by
      have hq := hFold s1 rfl
      rw [visitorFold_collect] at hq
      simpa using hq
    cases og with
    | done t1 =>
      have hl2 : lc = lg := hl
      have hs2 : s1 = lg := hs1.trans hl2
      simp only [Backtrace.new_with_trap_state, hc, hs2, streamResult]
      rfl
    | abortAssert => simp [TraceOutcome.kind] at hk
    | abortUnreachable => simp [TraceOutcome.kind] at hk
  | abortAssert =>
    cases og with
    | done t1 => simp [TraceOutcome.kind] at hk
    | abortAssert => simp [Backtrace.new_with_trap_state, hc, streamResult]
    | abortUnreachable => simp [TraceOutcome.kind] at hk
  | abortUnreachable =>
    cases og with
    | done t1 => simp [TraceOutcome.kind] at hk
    | abortAssert => simp [TraceOutcome.kind] at hk
    | abortUnreachable => simp [Backtrace.new_with_trap_state, hc, streamResult]

/-- Witness for C9 with the trivial always-continue visitor on the concrete
two-region stack. -/
theorem c9_collect_refines_stream_witness :
    alwaysContinues unitV ∧
    (Backtrace.new_with_trap_state archX64 memTwoRegions stateTwoRegions
        none).map Backtrace.frames =
      streamResult (trace_with_trap_state archX64 memTwoRegions stateTwoRegions
        none unitV ()) :=
  ⟨fun _ _ => rfl,
    c9_collect_refines_stream archX64 memTwoRegions stateTwoRegions none
      unitV () (fun _ _ => rfl)⟩

/-- Claim C10: a capture never returns by exhausting the chain iteration:
the final `unreachable!()` of `trace_with_trap_state` is never the outcome,
for any thread state, trap override and visitor. -/
theorem c10_no_iteration_exhaustion (A : Arch) (mem : Nat → Nat)
    (st : CallThreadState) (ov : Option (Nat × Nat)) (f : σ → Frame → σ × Bool)
    (s : σ) :
    (trace_with_trap_state A mem st ov f s).2 ≠ TraceOutcome.abortUnreachable :=
  trace_with_trap_state_ne_unreachable_aux A mem st ov f s
